import Mathlib

/-!
Shallow embedding of the dimension-selection rules of skdim.lid.lPCA
(src/skdim/lid/_PCA.py): the four rules FO, fan, maxgap and ratio over an
eigenvalue spectrum.  Spectrum entries are modelled as rationals; results of
numpy divisions are modelled by an extended-value type carrying the
signed-infinity and nan outcomes of dividing by zero.  The fan rule, which
subtracts its noise estimate from the array in place, is modelled with the
array state threaded explicitly.
-/

set_option autoImplicit false

set_option allowUnsafeReducibility true
attribute [local semireducible] Rat.mul Rat.add Rat.div Rat.sub Rat.inv Rat.ofScientific

/-- Result of a numpy elementwise division: finite value, +inf, -inf or nan. -/
inductive EVal where
  | fin : ℚ → EVal
  | pinf : EVal
  | ninf : EVal
  | nan : EVal
deriving DecidableEq, Repr

/-- numpy scalar division a / b: finite quotient when b is nonzero, otherwise
a signed infinity (or nan for 0 / 0) according to the sign of a. -/
def pyDivQ (a b : ℚ) : EVal :=
  if b = 0 then (if 0 < a then .pinf else if a < 0 then .ninf else .nan) else .fin (a / b)

/-- Comparison e > c between an extended value and a rational threshold, with
numpy semantics: nan compares false, +inf compares true, -inf false. -/
def EVal.gtQ : EVal → ℚ → Bool
  | .fin q, c => decide (c < q)
  | .pinf, _ => true
  | .ninf, _ => false
  | .nan, _ => false

/-- Strict order on extended values as used by argmax after nan replacement:
nan is ranked together with -inf (numpy nanargmax replaces nan by -inf). -/
def EVal.ltE : EVal → EVal → Bool
  | .fin a, .fin b => decide (a < b)
  | .fin _, .pinf => true
  | .ninf, .fin _ => true
  | .ninf, .pinf => true
  | .nan, .fin _ => true
  | .nan, .pinf => true
  | _, _ => false

/-- Key used by nanargmax: nan entries are replaced by -inf. -/
def toKey (e : EVal) : EVal := if e = .nan then .ninf else e

/-- Python negative-index aware list read (numpy one-dimensional indexing):
index -1 reads the last entry. -/
def pyGet (l : List EVal) (i : ℤ) : EVal :=
  if 0 ≤ i then l.getD i.toNat .nan else l.getD (l.length - (-i).toNat) .nan

/-- np.cumsum: entry i is the sum of the first i + 1 entries. -/
def cumsum (v : List ℚ) : List ℚ :=
  (List.range v.length).map (fun i => (v.take (i + 1)).sum)

namespace lPCA

/-- gaps = explained_var[:-1] / explained_var[1:], elementwise division of a
spectrum by its shift, giving the consecutive-ratio gap sequence. -/
def gaps (v : List ℚ) : List EVal :=
  (v.zip v.tail).map (fun p => pyDivQ p.1 p.2)

/-- The return pattern shared by _FO, _maxgap and _fan: gaps[de-1] when
de - 1 < len(gaps), else gaps[-1]; de - 1 may be the Python index -1, which
reads the last entry. -/
def codeGap (de : ℕ) (g : List EVal) : EVal :=
  if (de : ℤ) - 1 < (g.length : ℤ) then pyGet g ((de : ℤ) - 1) else pyGet g (-1)

/-- lPCA._FO: the count of eigenvalues strictly above alphaFO times the
largest one, paired with the gap at the chosen cutoff. -/
def FO (alphaFO : ℚ) (v : List ℚ) : ℕ × EVal :=
  let de := (v.map (fun x => if alphaFO * v.headD 0 < x then 1 else 0)).sum
  (de, codeGap de (gaps v))

/-- Fold of np.argmax: the first index of the maximal key wins ties. -/
def argmaxAux : List EVal → ℕ → ℕ → EVal → ℕ
  | [], _, b, _ => b
  | x :: xs, i, b, bv =>
    if bv.ltE x then argmaxAux xs (i + 1) i x else argmaxAux xs (i + 1) b bv

/-- np.nanargmax: argmax with nan entries treated as -inf; none models the
ValueError raised when every entry is nan (or the array is empty). -/
def nanargmax (l : List EVal) : Option ℕ :=
  if l.all (fun e => decide (e = .nan)) then none
  else
    match l.map toKey with
    | [] => none
    | x :: xs => some (argmaxAux xs 1 0 x)

/-- lPCA._maxgap: position of the largest consecutive-ratio gap (nan-aware),
one-indexed, with the gap at the chosen cutoff; none models the uncaught
ValueError of nanargmax on an all-nan gap sequence. -/
def maxgap (v : List ℚ) : Option (ℕ × EVal) :=
  match nanargmax (gaps v) with
  | none => none
  | some idx => some (idx + 1, codeGap (idx + 1) (gaps v))

/-- lPCA._ratio: the smallest count of leading components whose raw cumulative
sum strictly exceeds alphaRatio; the full length when no prefix does.  The
rule returns the dimension alone, no gap statistic. -/
def ratio (alphaRatio : ℚ) (v : List ℚ) : ℕ :=
  let sumexp := cumsum v
  match (List.range sumexp.length).filter (fun i => decide (alphaRatio < sumexp.getD i 0)) with
  | [] => v.length
  | a :: rest => rest.foldl min a + 1

/-- lPCA._fan with the array state threaded explicitly: the source subtracts
sigma from the array in place, so the final array contents are returned
alongside the result.  A none result models the uncaught numpy errors
(IndexError when no cumulative fraction reaches PFan, ValueError from taking
the min of an empty index set). -/
def fanRun (PFan alphaFan betaFan : ℚ) (v : List ℚ) : Option (ℕ × EVal) × List ℚ :=
  let s := v.sum
  let cs := cumsum v
  match (List.range cs.length).filter (fun i => (pyDivQ (cs.getD i 0) s).gtQ PFan) with
  | [] => (none, v)
  | r :: _ =>
    let sigma := (v.drop r).sum / ((v.drop r).length : ℚ)
    let w := v.map (fun x => x - sigma)
    let g := gaps w
    let cw := cumsum w
    let sw := w.sum
    let set1 := (List.range g.length).filter (fun i => (g.getD i .nan).gtQ alphaFan)
    let set2 := (List.range cw.length).filter (fun i => (pyDivQ (cw.getD i 0) sw).gtQ betaFan)
    (match set1 ++ set2 with
     | [] => none
     | a :: rest => some (1 + rest.foldl min a, codeGap (1 + rest.foldl min a) g), w)

/-- lPCA._FO with the array state threaded: the source never writes to the
array, so the state is returned unchanged. -/
def FO_run (alphaFO : ℚ) (v : List ℚ) : (ℕ × EVal) × List ℚ := (FO alphaFO v, v)

/-- lPCA._maxgap with the array state threaded: the source never writes to
the array. -/
def maxgap_run (v : List ℚ) : Option (ℕ × EVal) × List ℚ := (maxgap v, v)

/-- lPCA._ratio with the array state threaded: the source never writes to
the array. -/
def ratio_run (alphaRatio : ℚ) (v : List ℚ) : ℕ × List ℚ := (ratio alphaRatio v, v)

end lPCA

/-- The gap helper described by the spec: gaps[de - 1] when 1 ≤ de and
de - 1 is in range, otherwise the last gap (clamped); de = 0 also yields the
last gap, matching the Python negative index gaps[-1]. -/
def gapAt (de : ℕ) (g : List EVal) : EVal :=
  if 1 ≤ de ∧ de - 1 < g.length then g.getD (de - 1) .nan else g.getLastD .nan

/-- Cumulative-sum threshold test of the ratio rule at index i, stated with
an explicit prefix sum as in the spec. -/
def ratioCond (alphaRatio : ℚ) (v : List ℚ) (i : ℕ) : Bool :=
  decide (i < v.length) && decide (alphaRatio < (v.take (i + 1)).sum)

/-- Noise-tail test of the fan rule at index i: the cumulative variance
fraction strictly exceeds PFan. -/
def rCond (PFan : ℚ) (v : List ℚ) (i : ℕ) : Bool :=
  decide (i < v.length) && (pyDivQ ((v.take (i + 1)).sum) v.sum).gtQ PFan

/-- Stopping test of the fan rule on the shifted spectrum w at index i:
either the gap at i exceeds alphaFan, or the cumulative fraction of the
shifted spectrum at i exceeds betaFan. -/
def fanCond (alphaFan betaFan : ℚ) (w : List ℚ) (i : ℕ) : Bool :=
  (decide (i < (lPCA.gaps w).length) && ((lPCA.gaps w).getD i .nan).gtQ alphaFan)
    || (decide (i < w.length) && (pyDivQ ((w.take (i + 1)).sum) w.sum).gtQ betaFan)

/-- The noise-floor shift of the fan rule: every entry reduced by the mean of
the tail starting at index r. -/
def fanShift (v : List ℚ) (r : ℕ) : List ℚ :=
  v.map (fun x => x - (v.drop r).sum / ((v.drop r).length : ℚ))

/-- The concatenated index set searched by the fan rule on the shifted
spectrum w: indices whose gap exceeds alphaFan, followed by indices whose
cumulative fraction exceeds betaFan. -/
def fanSet (alphaFan betaFan : ℚ) (w : List ℚ) : List ℕ :=
  (List.range (lPCA.gaps w).length).filter (fun i => ((lPCA.gaps w).getD i .nan).gtQ alphaFan)
    ++ (List.range (cumsum w).length).filter
        (fun i => (pyDivQ ((cumsum w).getD i 0) w.sum).gtQ betaFan)

/-- The estimate the fan rule derives from its search set: none on an empty
set, otherwise one plus the minimum index together with the gap there. -/
def fanPick (alphaFan betaFan : ℚ) (w : List ℚ) : Option (ℕ × EVal) :=
  match fanSet alphaFan betaFan w with
  | [] => none
  | a :: rest =>
    some (1 + rest.foldl min a, lPCA.codeGap (1 + rest.foldl min a) (lPCA.gaps w))

/-!
Order facts about the argmax comparison, minimum folds and filtered ranges.
-/

theorem ltE_irrefl (a : EVal) : a.ltE a = false := by
  cases a <;> simp [EVal.ltE]

theorem ltE_asymm {a b : EVal} (h : a.ltE b = true) : b.ltE a = false := by
  cases a <;> cases b <;> simp_all [EVal.ltE] <;> linarith

theorem ltE_of_not_of_ltE {a b c : EVal} (h1 : b.ltE a = false) (h2 : b.ltE c = true) :
    a.ltE c = true := by
  cases a <;> cases b <;> cases c <;> simp_all [EVal.ltE] <;> linarith

theorem foldl_min_le (l : List ℕ) (a : ℕ) :
    l.foldl min a ≤ a ∧ ∀ x ∈ l, l.foldl min a ≤ x := by
  induction l generalizing a with
  | nil => simp
  | cons y ys ih =>
    refine ⟨?_, ?_⟩
    · exact le_trans (le_trans (ih (min a y)).1 (min_le_left a y)) (le_refl a)
    · intro x hx
      rcases List.mem_cons.mp hx with rfl | hx
      · exact le_trans (ih (min a x)).1 (min_le_right a x)
      · exact (ih (min a y)).2 x hx

theorem foldl_min_mem (l : List ℕ) (a : ℕ) :
    l.foldl min a = a ∨ l.foldl min a ∈ l := by
  induction l generalizing a with
  | nil => simp
  | cons y ys ih =>
    rcases ih (min a y) with h | h
    · rcases le_total a y with hy | hy
      · left; simpa [min_eq_left hy] using h
      · right; simp only [List.foldl_cons]
        rw [h, min_eq_right hy]; exact List.mem_cons_self y ys
    · right; exact List.mem_cons_of_mem y h

theorem foldl_min_const {l : List ℕ} {a : ℕ} (h : ∀ x ∈ l, a ≤ x) :
    l.foldl min a = a := by
  induction l with
  | nil => rfl
  | cons y ys ih =>
    simp only [List.foldl_cons]
    rw [min_eq_left (h y (List.mem_cons_self y ys))]
    exact ih fun x hx => h x (List.mem_cons_of_mem y hx)

theorem range_filter_nil {p : ℕ → Bool} {n : ℕ} (h : (List.range n).filter p = []) :
    ∀ j < n, p j = false := by
  intro j hj
  by_contra hpj
  have : j ∈ (List.range n).filter p :=
    List.mem_filter.mpr ⟨List.mem_range.mpr hj, by simpa using hpj⟩
  simp [h] at this

theorem range_filter_cons {p : ℕ → Bool} {n r : ℕ} (h1 : p r = true) (h2 : r < n)
    (h3 : ∀ j < r, p j = false) :
    ∃ t, (List.range n).filter p = r :: t ∧ ∀ x ∈ t, r ≤ x := by
  obtain ⟨k, rfl⟩ : ∃ k, n = r + (1 + k) := ⟨n - r - 1, by omega⟩
  have hsplit : List.range (r + (1 + k)) =
      List.range r ++ (List.range (1 + k)).map (r + ·) := List.range_add r (1 + k)
  have hsplit2 : List.range (1 + k) = 0 :: (List.range k).map (1 + ·) := by
    rw [List.range_add]; rfl
  have hfilter1 : (List.range r).filter p = [] :=
    List.filter_eq_nil.mpr (fun a ha => by simp [h3 a (List.mem_range.mp ha)])
  refine ⟨((List.range k).map (fun x => r + (1 + x))).filter p, ?_, ?_⟩
  · rw [hsplit, List.filter_append, hfilter1, List.nil_append, hsplit2]
    simp only [List.map_cons, List.map_map, List.filter_cons]
    rw [if_pos]
    · rfl
    · simpa using h1
  · intro x hx
    rcases List.mem_filter.mp hx with ⟨hmem, _⟩
    rcases List.mem_map.mp hmem with ⟨y, _, rfl⟩
    omega

theorem range_filter_head {p : ℕ → Bool} {n a : ℕ} {t : List ℕ}
    (h : (List.range n).filter p = a :: t) : p a = true ∧ a < n := by
  have : a ∈ (List.range n).filter p := by rw [h]; exact List.mem_cons_self a t
  rcases List.mem_filter.mp this with ⟨hmem, hp⟩
  exact ⟨by simpa using hp, List.mem_range.mp hmem⟩

/-!
Access lemmas for cumsum, gaps and the shared gap-return pattern.
-/

theorem cumsum_length (v : List ℚ) : (cumsum v).length = v.length := by
  simp [cumsum]

theorem cumsum_getD {v : List ℚ} {i : ℕ} (h : i < v.length) :
    (cumsum v).getD i 0 = (v.take (i + 1)).sum := by
  rw [cumsum, List.getD_eq_getElem?_getD, List.getElem?_map, List.getElem?_range h]
  rfl

theorem gaps_length (v : List ℚ) : (lPCA.gaps v).length = v.length - 1 := by
  simp only [lPCA.gaps, List.length_map, List.length_zip, List.length_tail]
  omega

theorem gaps_getD {v : List ℚ} {i : ℕ} (h : i + 1 < v.length) :
    (lPCA.gaps v).getD i .nan = pyDivQ (v.getD i 0) (v.getD (i + 1) 0) := by
  have hz : i < (v.zip v.tail).length := by
    simp only [List.length_zip, List.length_tail]; omega
  have hv : i < v.length := by omega
  rw [lPCA.gaps, List.getD_eq_getElem?_getD, List.getElem?_map,
    List.getElem?_eq_getElem hz, List.getD_eq_getElem?_getD,
    List.getElem?_eq_getElem hv, List.getD_eq_getElem?_getD,
    List.getElem?_eq_getElem h]
  simp [List.getElem_zip, List.getElem_tail]

theorem getLastD_eq_getD (g : List EVal) :
    g.getLastD .nan = g.getD (g.length - 1) .nan := by
  rw [List.getLastD_eq_getLast?, List.getLast?_eq_getElem?, List.getD_eq_getElem?_getD]

theorem codeGap_eq_gapAt {de : ℕ} {g : List EVal} (hg : g ≠ []) :
    lPCA.codeGap de g = gapAt de g := by
  have hlen : 1 ≤ g.length := List.length_pos.mpr hg
  rcases Nat.eq_zero_or_pos de with rfl | hde
  · have hbr : ((0 : ℕ) : ℤ) - 1 < (g.length : ℤ) := by push_cast; omega
    rw [lPCA.codeGap, if_pos hbr, pyGet, if_neg (by norm_num), gapAt,
      if_neg (by omega), getLastD_eq_getD g]
    norm_num
  · rw [lPCA.codeGap, pyGet]
    by_cases hbr : de - 1 < g.length
    · have hbz : ((de : ℤ)) - 1 < (g.length : ℤ) := by push_cast; omega
      rw [if_pos hbz, if_pos (by omega), gapAt, if_pos ⟨hde, hbr⟩]
      congr 1
      omega
    · have hbz : ¬ ((de : ℤ) - 1 < (g.length : ℤ)) := by push_cast; omega
      rw [if_neg hbz, pyGet, if_neg (by norm_num), gapAt, if_neg (by omega),
        getLastD_eq_getD g]
      norm_num

theorem sum_map_ite_eq_countP (c : ℚ) (v : List ℚ) :
    (v.map (fun x => if c < x then 1 else 0)).sum = v.countP (fun x => decide (c < x)) := by
  induction v with
  | nil => rfl
  | cons y ys ih =>
    by_cases hy : c < y
    · simp [List.countP_cons, hy, ih, Nat.add_comm]
    · simp [List.countP_cons, hy, ih]

/-!
Claim theorems.
-/

/-- C2: for a non-increasing non-negative spectrum of at least two entries and
alphaFO in (0,1], the FO rule returns the count of eigenvalues strictly above
alphaFO times the largest one, paired with the gap at that cutoff taken from
the consecutive-ratio gap sequence. -/
theorem FO_count_gap (v : List ℚ) (alphaFO : ℚ) (hd : 2 ≤ v.length)
    (hsort : v.Pairwise (fun a b => b ≤ a)) (hnn : ∀ x ∈ v, 0 ≤ x)
    (ha : 0 < alphaFO ∧ alphaFO ≤ 1) :
    lPCA.FO alphaFO v
      = (v.countP (fun x => decide (alphaFO * v.headD 0 < x)),
         gapAt (v.countP (fun x => decide (alphaFO * v.headD 0 < x))) (lPCA.gaps v)) := by
  have hg : lPCA.gaps v ≠ [] := by
    intro hnil
    have hlen := gaps_length v
    rw [hnil] at hlen
    simp at hlen
    omega
  simp only [lPCA.FO]
  rw [sum_map_ite_eq_countP, codeGap_eq_gapAt hg]

/-- C2 witness: on the spectrum [10, 9, 1, 9/10, 1/10] with alphaFO = 1/20
the FO rule returns dimension 4 with gap 9, matching the counting contract. -/
theorem FO_count_gap_witness :
    lPCA.FO (1/20) [10, 9, 1, 9/10, 1/10] = (4, EVal.fin 9)
      ∧ lPCA.FO (1/20) [10, 9, 1, 9/10, 1/10]
          = ([(10:ℚ), 9, 1, 9/10, 1/10].countP
               (fun x => decide ((1/20) * ([(10:ℚ), 9, 1, 9/10, 1/10].headD 0) < x)),
             gapAt ([(10:ℚ), 9, 1, 9/10, 1/10].countP
               (fun x => decide ((1/20) * ([(10:ℚ), 9, 1, 9/10, 1/10].headD 0) < x)))
               (lPCA.gaps [10, 9, 1, 9/10, 1/10])) :=
  ⟨by decide,
   FO_count_gap [10, 9, 1, 9/10, 1/10] (1/20) (by decide) (by decide) (by decide) (by decide)⟩

/-- C8 (amended): with alphaFO = 1 the FO rule returns dimension 0, not 1, on
every non-increasing spectrum: the strict comparison excludes every
eigenvalue, the largest one included. -/
theorem FO_alpha_one_zero (v : List ℚ) (hv : v ≠ [])
    (hsort : v.Pairwise (fun a b => b ≤ a)) : (lPCA.FO 1 v).1 = 0 := by
  simp only [lPCA.FO]
  rw [sum_map_ite_eq_countP, List.countP_eq_zero]
  intro x hx
  simp only [one_mul, decide_eq_true_eq, not_lt]
  cases v with
  | nil => exact absurd rfl hv
  | cons y ys =>
    rcases List.mem_cons.mp hx with rfl | hx
    · simp
    · simpa using (List.pairwise_cons.mp hsort).1 x hx

/-- C8 counterexample: with alphaFO = 1 the FO rule returns dimension 0 on
the spectrum [10, 9, 1, 9/10, 1/10], not dimension 1 as claimed. -/
theorem FO_alpha_one_cex :
    (lPCA.FO 1 [10, 9, 1, 9/10, 1/10]).1 = 0
      ∧ (lPCA.FO 1 [10, 9, 1, 9/10, 1/10]).1 ≠ 1 := by
  decide

/-- C8 witness: the amended statement evaluated on the spectrum [10, 9]. -/
theorem FO_alpha_one_zero_witness : (lPCA.FO 1 [(10:ℚ), 9]).1 = 0 :=
  FO_alpha_one_zero [(10:ℚ), 9] (by decide) (by decide)

/-- C9 (amended): FO, maxgap and ratio never write to the array, so calling
any of them twice in succession on the same array yields identical output;
the fan rule, by contrast, mutates its argument and a second successive call
can return a different estimate. -/
theorem rules_idempotent_amended (v : List ℚ) (aF aR : ℚ) :
    (lPCA.FO_run aF ((lPCA.FO_run aF v).2)).1 = (lPCA.FO_run aF v).1
      ∧ (lPCA.maxgap_run ((lPCA.maxgap_run v).2)).1 = (lPCA.maxgap_run v).1
      ∧ (lPCA.ratio_run aR ((lPCA.ratio_run aR v).2)).1 = (lPCA.ratio_run aR v).1 :=
  ⟨rfl, rfl, rfl⟩

/-- C9 counterexample: two successive fan calls on the same array disagree on
[10, 9, 1, 9/10, 1/10] with the default parameters: the first call returns
dimension 2 and shifts the array, the second call then returns dimension 1. -/
theorem fan_second_call_cex :
    (lPCA.fanRun (19/20) 10 (4/5)
        ((lPCA.fanRun (19/20) 10 (4/5) [10, 9, 1, 9/10, 1/10]).2)).1
      ≠ (lPCA.fanRun (19/20) 10 (4/5) [10, 9, 1, 9/10, 1/10]).1 := by
  decide

/-- The first filter of the fan rule agrees with the noise-tail test rCond. -/
theorem fan_rfilter_eq (PFan : ℚ) (v : List ℚ) :
    (List.range (cumsum v).length).filter
        (fun i => (pyDivQ ((cumsum v).getD i 0) v.sum).gtQ PFan)
      = (List.range v.length).filter (rCond PFan v) := by
  rw [cumsum_length]
  apply List.filter_congr
  intro i hi
  have hi := List.mem_range.mp hi
  rw [rCond, cumsum_getD hi]
  simp [hi]

/-- C7 (amended): the fan rule subtracts the noise floor from the array in
place: whenever the noise-tail index r is found (the first index whose
cumulative variance fraction exceeds PFan), the array afterwards holds
v - mean(v[r:]) in every entry, and is not restored before returning. -/
theorem fan_shift_in_place (v : List ℚ) (PFan aF bF : ℚ) (r : ℕ)
    (hr1 : rCond PFan v r = true) (hr2 : ∀ j < r, rCond PFan v j = false) :
    (lPCA.fanRun PFan aF bF v).2 = fanShift v r := by
  have hrlt : r < v.length := by
    rw [rCond, Bool.and_eq_true] at hr1
    exact of_decide_eq_true hr1.1
  obtain ⟨t, ht, -⟩ := range_filter_cons hr1 hrlt hr2
  simp only [lPCA.fanRun]
  rw [fan_rfilter_eq PFan v, ht]
  rfl

/-- C7 counterexample: after a fan call on [10, 9, 1, 9/10, 1/10] the array
no longer holds its original values. -/
theorem fan_no_mutation_cex :
    (lPCA.fanRun (19/20) 10 (4/5) [10, 9, 1, 9/10, 1/10]).2
      ≠ [10, 9, 1, 9/10, 1/10] := by
  decide

/-- C7 witness: the amended statement on [10, 9, 1, 9/10, 1/10] with the
default parameters: after the call the array holds the shifted spectrum. -/
theorem fan_shift_in_place_witness :
    (lPCA.fanRun (19/20) 10 (4/5) [10, 9, 1, 9/10, 1/10]).2
      = [28/3, 25/3, 1/3, 7/30, -17/30] := by
  rw [fan_shift_in_place [10, 9, 1, 9/10, 1/10] (19/20) 10 (4/5) 2 (by decide) (by decide)]
  decide

/-- The filter of the ratio rule agrees with the prefix-sum test ratioCond. -/
theorem ratio_filter_eq (alphaRatio : ℚ) (v : List ℚ) :
    (List.range (cumsum v).length).filter
        (fun i => decide (alphaRatio < (cumsum v).getD i 0))
      = (List.range v.length).filter (ratioCond alphaRatio v) := by
  rw [cumsum_length]
  apply List.filter_congr
  intro i hi
  have hi := List.mem_range.mp hi
  rw [ratioCond, cumsum_getD hi]
  simp [hi]

/-- C4: the ratio rule returns the smallest 1-indexed de whose raw prefix sum
strictly exceeds alphaRatio, and the full length when no prefix sum does; it
returns the dimension alone, without a gap statistic. -/
theorem ratio_threshold (v : List ℚ) (alphaRatio : ℚ)
    (ha : 0 < alphaRatio ∧ alphaRatio ≤ 1) :
    (∀ de : ℕ, 1 ≤ de → ratioCond alphaRatio v (de - 1) = true →
        (∀ j < de - 1, ratioCond alphaRatio v j = false) →
        lPCA.ratio alphaRatio v = de)
      ∧ ((∀ j < v.length, ratioCond alphaRatio v j = false) →
          lPCA.ratio alphaRatio v = v.length) := by
  constructor
  · intro de hde h1 h2
    have hlt : de - 1 < v.length := by
      rw [ratioCond, Bool.and_eq_true] at h1
      exact of_decide_eq_true h1.1
    obtain ⟨t, ht, htge⟩ := range_filter_cons h1 hlt h2
    simp only [lPCA.ratio, ratio_filter_eq, ht]
    rw [foldl_min_const htge]
    omega
  · intro hall
    have ht : (List.range v.length).filter (ratioCond alphaRatio v) = [] :=
      List.filter_eq_nil.mpr fun a ha => by simp [hall a (List.mem_range.mp ha)]
    simp only [lPCA.ratio, ratio_filter_eq, ht]

/-- C4 witness: with alphaRatio = 1/2 on [3/4, 1] the first prefix sum 3/4
already exceeds the threshold, so the dimension is 1; with alphaRatio = 3/4
on [1/4, 1/4] no prefix sum exceeds the threshold and both components are
kept. -/
theorem ratio_threshold_witness :
    lPCA.ratio (1/2) [(3/4 : ℚ), 1] = 1 ∧ lPCA.ratio (3/4) [(1/4 : ℚ), 1/4] = 2 :=
  ⟨(ratio_threshold [(3/4 : ℚ), 1] (1/2) (by decide)).1 1 (by decide) (by decide)
      (by decide),
   (ratio_threshold [(1/4 : ℚ), 1/4] (3/4) (by decide)).2 (by decide)⟩

/-- The argmax fold returns an index below the total length. -/
theorem argmaxAux_lt (xs : List EVal) : ∀ (i b : ℕ) (bv : EVal), b < i →
    lPCA.argmaxAux xs i b bv < i + xs.length := by
  induction xs with
  | nil => intro i b bv h; simpa [lPCA.argmaxAux] using h
  | cons x xs ih =>
    intro i b bv h
    rw [lPCA.argmaxAux]
    by_cases hb : bv.ltE x = true
    · rw [if_pos hb]
      have := ih (i + 1) i x (by omega)
      simpa [Nat.add_comm, Nat.add_left_comm] using this
    · rw [if_neg hb]
      have := ih (i + 1) b bv (by omega)
      simp only [List.length_cons]
      omega

/-- nanargmax only returns indices inside the array. -/
theorem nanargmax_lt {l : List EVal} {idx : ℕ} (h : lPCA.nanargmax l = some idx) :
    idx < l.length := by
  cases l with
  | nil => simp [lPCA.nanargmax] at h
  | cons e es =>
    rw [lPCA.nanargmax] at h
    by_cases hall : (e :: es).all (fun x => decide (x = EVal.nan)) = true
    · rw [if_pos hall] at h; exact absurd h (by simp)
    · rw [if_neg hall] at h
      simp only [List.map_cons] at h
      have hb := argmaxAux_lt (es.map toKey) 1 0 (toKey e) (by omega)
      simp only [List.length_map] at hb
      simp only [Option.some.injEq] at h
      simp only [List.length_cons]
      omega

/-- C10: when the maxgap rule returns, its estimate lies between 1 and d - 1:
it is one plus an argmax over the d - 1 consecutive-ratio gaps, so the full
dimension d is never returned. -/
theorem maxgap_le_pred (v : List ℚ) (de : ℕ) (g : EVal) (hd : 2 ≤ v.length)
    (h : lPCA.maxgap v = some (de, g)) : 1 ≤ de ∧ de ≤ v.length - 1 := by
  rw [lPCA.maxgap] at h
  cases hmax : lPCA.nanargmax (lPCA.gaps v) with
  | none => rw [hmax] at h; exact absurd h (by simp)
  | some idx =>
    rw [hmax] at h
    have hlt := nanargmax_lt hmax
    rw [gaps_length] at hlt
    simp only [Option.some.injEq, Prod.mk.injEq] at h
    omega

/-- C10 witness: on [10, 9, 1, 9/10, 1/10] maxgap returns 2, within 1..d-1;
FO and ratio, by contrast, can return the full dimension d, as they do on the
two-entry spectrum [1, 1]. -/
theorem maxgap_le_pred_witness :
    lPCA.maxgap [10, 9, 1, 9/10, 1/10] = some (2, EVal.fin 9)
      ∧ (1 ≤ 2 ∧ 2 ≤ [(10:ℚ), 9, 1, 9/10, 1/10].length - 1)
      ∧ (lPCA.FO (1/2) [(1:ℚ), 1]).1 = 2 ∧ lPCA.ratio 3 [(1:ℚ), 1] = 2 :=
  ⟨by decide,
   maxgap_le_pred [10, 9, 1, 9/10, 1/10] 2 (EVal.fin 9) (by decide) (by decide),
   by decide, by decide⟩

/-- When no cumulative fraction exceeds PFan the fan rule fails before
touching the array. -/
theorem fanRun_nil {PFan aFan bFan : ℚ} {v : List ℚ}
    (h : (List.range v.length).filter (rCond PFan v) = []) :
    lPCA.fanRun PFan aFan bFan v = (none, v) := by
  simp only [lPCA.fanRun, fan_rfilter_eq, h]

/-- One-step unfolding of the fan rule once the noise-tail index r heads the
filtered index list. -/
theorem fanRun_cons {PFan aFan bFan : ℚ} {v : List ℚ} {r : ℕ} {t : List ℕ}
    (ht : (List.range v.length).filter (rCond PFan v) = r :: t) :
    lPCA.fanRun PFan aFan bFan v
      = (fanPick aFan bFan (fanShift v r), fanShift v r) := by
  simp only [lPCA.fanRun]
  rw [fan_rfilter_eq PFan v, ht]
  rfl

/-- fanPick on an empty search set: no cutoff is found. -/
theorem fanPick_nil {alphaFan betaFan : ℚ} {w : List ℚ}
    (h : fanSet alphaFan betaFan w = []) : fanPick alphaFan betaFan w = none := by
  unfold fanPick
  rw [h]

/-- fanPick on a nonempty search set: one plus the minimum index, with the
gap there. -/
theorem fanPick_cons {alphaFan betaFan : ℚ} {w : List ℚ} {a : ℕ} {rest : List ℕ}
    (h : fanSet alphaFan betaFan w = a :: rest) :
    fanPick alphaFan betaFan w
      = some (1 + rest.foldl min a,
          lPCA.codeGap (1 + rest.foldl min a) (lPCA.gaps w)) := by
  unfold fanPick
  rw [h]

/-- Membership in the fan search set coincides with the stopping test. -/
theorem fanSet_mem {alphaFan betaFan : ℚ} {w : List ℚ} {m : ℕ} :
    m ∈ fanSet alphaFan betaFan w ↔ fanCond alphaFan betaFan w m = true := by
  simp only [fanSet, fanCond, List.mem_append, List.mem_filter, List.mem_range,
    Bool.or_eq_true, Bool.and_eq_true, decide_eq_true_eq]
  constructor
  · rintro (⟨h1, h2⟩ | ⟨h1, h2⟩)
    · exact Or.inl ⟨h1, h2⟩
    · rw [cumsum_length] at h1
      rw [cumsum_getD h1] at h2
      exact Or.inr ⟨h1, h2⟩
  · rintro (⟨h1, h2⟩ | ⟨h1, h2⟩)
    · exact Or.inl ⟨h1, h2⟩
    · rw [← cumsum_getD h1] at h2
      exact Or.inr ⟨by rw [cumsum_length]; exact h1, h2⟩

/-- C1 (amended): every rule that returns an estimate returns at most d; the
estimate is at least 1 for ratio always, for maxgap and fan whenever they
return, and for FO whenever the leading eigenvalue is positive and
alphaFO < 1; an all-zero spectrum instead yields FO dimension 0 and makes
maxgap and fan fail. -/
theorem rule_bounds_amended (v : List ℚ) (aFO aR P aFan bFan : ℚ)
    (hd : 2 ≤ v.length) (hnn : ∀ x ∈ v, 0 ≤ x)
    (hsort : v.Pairwise (fun a b => b ≤ a)) (haR : 0 < aR) :
    (lPCA.FO aFO v).1 ≤ v.length
      ∧ (0 < v.headD 0 → aFO < 1 → 1 ≤ (lPCA.FO aFO v).1)
      ∧ (1 ≤ lPCA.ratio aR v ∧ lPCA.ratio aR v ≤ v.length)
      ∧ (∀ de g, lPCA.maxgap v = some (de, g) → 1 ≤ de ∧ de ≤ v.length)
      ∧ (∀ de g, (lPCA.fanRun P aFan bFan v).1 = some (de, g) →
          1 ≤ de ∧ de ≤ v.length) := by
  refine ⟨?_, ?_, ?_, ?_, ?_⟩
  · simp only [lPCA.FO]
    rw [sum_map_ite_eq_countP]
    exact List.countP_le_length _
  · intro hpos hlt
    simp only [lPCA.FO]
    rw [sum_map_ite_eq_countP]
    cases v with
    | nil => simp at hd
    | cons y ys =>
      have hy : aFO * (y :: ys).headD 0 < y := by
        simp only [List.headD_cons]
        calc aFO * y < 1 * y := mul_lt_mul_of_pos_right hlt (by simpa using hpos)
        _ = y := one_mul y
      have hmem : 0 < (y :: ys).countP (fun x => decide (aFO * (y :: ys).headD 0 < x)) :=
        List.countP_pos.mpr ⟨y, List.mem_cons_self y ys, by simpa using hy⟩
      omega
  · cases hfil : (List.range v.length).filter (ratioCond aR v) with
    | nil =>
      simp only [lPCA.ratio, ratio_filter_eq, hfil]
      omega
    | cons a rest =>
      simp only [lPCA.ratio, ratio_filter_eq, hfil]
      have hmem : ∀ x ∈ a :: rest, x < v.length := by
        intro x hx
        rw [← hfil] at hx
        exact List.mem_range.mp (List.mem_filter.mp hx).1
      have h2 := foldl_min_mem rest a
      have hlt : rest.foldl min a < v.length := by
        rcases h2 with h | h
        · rw [h]; exact hmem a (List.mem_cons_self a rest)
        · exact hmem _ (List.mem_cons_of_mem a h)
      omega
  · intro de g h
    have := maxgap_le_pred v de g hd h
    omega
  · intro de g h
    cases hfil : (List.range v.length).filter (rCond P v) with
    | nil => rw [fanRun_nil hfil] at h; simp at h
    | cons r t =>
      rw [fanRun_cons hfil] at h
      replace h : fanPick aFan bFan (fanShift v r) = some (de, g) := h
      cases hset : fanSet aFan bFan (fanShift v r) with
      | nil => rw [fanPick_nil hset] at h; simp at h
      | cons a rest =>
        rw [fanPick_cons hset] at h
        have hm : rest.foldl min a ∈ a :: rest := by
          rcases foldl_min_mem rest a with hh | hh
          · rw [hh]; exact List.mem_cons_self a rest
          · exact List.mem_cons_of_mem a hh
        rw [← hset] at hm
        have hcond := fanSet_mem.mp hm
        rw [fanCond, Bool.or_eq_true, Bool.and_eq_true, Bool.and_eq_true] at hcond
        have hwlen : (fanShift v r).length = v.length := by simp [fanShift]
        have hbound : rest.foldl min a < v.length := by
          rcases hcond with ⟨hc, -⟩ | ⟨hc, -⟩
          · have hlt := of_decide_eq_true hc
            rw [gaps_length, hwlen] at hlt
            omega
          · have hlt := of_decide_eq_true hc
            rw [hwlen] at hlt
            exact hlt
        simp only [Option.some.injEq, Prod.mk.injEq] at h
        omega

/-- C1 counterexample: on the valid all-zero spectrum [0, 0] the FO rule
returns dimension 0, below the claimed lower bound of 1, while maxgap and
fan fail with uncaught errors instead of returning an estimate. -/
theorem rule_bounds_cex :
    (lPCA.FO (1/20) [(0:ℚ), 0]).1 = 0
      ∧ lPCA.maxgap [(0:ℚ), 0] = none
      ∧ (lPCA.fanRun (19/20) 10 (4/5) [(0:ℚ), 0]).1 = none := by
  decide

/-- C1 witness: the amended bounds evaluated on [10, 9, 1, 9/10, 1/10] with
the default parameters. -/
theorem rule_bounds_witness :
    (lPCA.FO (1/20) [10, 9, 1, 9/10, 1/10]).1 ≤ [(10:ℚ), 9, 1, 9/10, 1/10].length
      ∧ 1 ≤ lPCA.ratio (1/20) [10, 9, 1, 9/10, 1/10] := by
  have h := rule_bounds_amended [10, 9, 1, 9/10, 1/10] (1/20) (1/20) (19/20) 10 (4/5)
    (by decide) (by decide) (by decide) (by decide)
  exact ⟨h.1, h.2.2.1.1⟩

/-- C6: when neither fan stopping condition holds at any index of the
shifted spectrum, the fan rule fails with an uncaught empty-selection error,
modelled by none, rather than returning an estimate. -/
theorem fan_no_cutoff (v : List ℚ) (PFan aFan bFan : ℚ) (r : ℕ)
    (hr1 : rCond PFan v r = true) (hr2 : ∀ j < r, rCond PFan v j = false)
    (hnone : ∀ i < v.length, fanCond aFan bFan (fanShift v r) i = false) :
    (lPCA.fanRun PFan aFan bFan v).1 = none := by
  have hrlt : r < v.length := by
    rw [rCond, Bool.and_eq_true] at hr1
    exact of_decide_eq_true hr1.1
  obtain ⟨t, ht, -⟩ := range_filter_cons hr1 hrlt hr2
  rw [fanRun_cons ht]
  have hempty : fanSet aFan bFan (fanShift v r) = [] := by
    rw [List.eq_nil_iff_forall_not_mem]
    intro a ha
    have hc := fanSet_mem.mp ha
    have halt : a < v.length := by
      have hc2 := hc
      rw [fanCond, Bool.or_eq_true, Bool.and_eq_true, Bool.and_eq_true] at hc2
      have hwlen : (fanShift v r).length = v.length := by simp [fanShift]
      rcases hc2 with ⟨h1, -⟩ | ⟨h1, -⟩
      · have h1 := of_decide_eq_true h1
        rw [gaps_length, hwlen] at h1
        omega
      · have h1 := of_decide_eq_true h1
        rw [hwlen] at h1
        exact h1
    rw [hnone a halt] at hc
    exact absurd hc (by simp)
  show fanPick aFan bFan (fanShift v r) = none
  exact fanPick_nil hempty

/-- C6 witness: a constant spectrum of 21 ones with PFan = 19/20, alphaFan =
10^9 and betaFan = 1: the noise tail starts at r = 19 (leaving two features),
the shifted spectrum is identically zero so every gap and every cumulative
fraction is nan, neither condition ever fires, and the rule fails. -/
theorem fan_no_cutoff_witness :
    (lPCA.fanRun (19/20) 1000000000 1 (List.replicate 21 (1:ℚ))).1 = none :=
  fan_no_cutoff (List.replicate 21 (1:ℚ)) (19/20) 1000000000 1 19
    (by decide) (by decide) (by decide)

/-- C5: under the stated preconditions the fan rule finds the noise tail at
the least index r whose cumulative variance fraction exceeds PFan, shifts
the spectrum by the mean of the tail, and whenever some index of the shifted
spectrum satisfies one of the two stopping conditions, it returns one plus
the least such index together with the gap of the shifted spectrum there. -/
theorem fan_stopping (v : List ℚ) (PFan aFan bFan : ℚ) (r de : ℕ)
    (hd : 2 ≤ v.length) (hnn : ∀ x ∈ v, 0 ≤ x)
    (hsort : v.Pairwise (fun a b => b ≤ a)) (hsum : 0 < v.sum)
    (hP : 0 < PFan ∧ PFan ≤ 1) (haF : 0 < aFan) (hbF : 0 < bFan ∧ bFan ≤ 1)
    (hr1 : rCond PFan v r = true) (hr2 : ∀ j < r, rCond PFan v j = false)
    (hde : 1 ≤ de) (hde1 : fanCond aFan bFan (fanShift v r) (de - 1) = true)
    (hde2 : ∀ j < de - 1, fanCond aFan bFan (fanShift v r) j = false) :
    (lPCA.fanRun PFan aFan bFan v).1
      = some (de, gapAt de (lPCA.gaps (fanShift v r))) := by
  have hrlt : r < v.length := by
    rw [rCond, Bool.and_eq_true] at hr1
    exact of_decide_eq_true hr1.1
  obtain ⟨t, ht, -⟩ := range_filter_cons hr1 hrlt hr2
  rw [fanRun_cons ht]
  show fanPick aFan bFan (fanShift v r) = some (de, gapAt de (lPCA.gaps (fanShift v r)))
  have hdemem : de - 1 ∈ fanSet aFan bFan (fanShift v r) := fanSet_mem.mpr hde1
  cases hset : fanSet aFan bFan (fanShift v r) with
  | nil => rw [hset] at hdemem; exact absurd hdemem (List.not_mem_nil _)
  | cons a rest =>
    rw [fanPick_cons hset]
    have hm : rest.foldl min a ∈ fanSet aFan bFan (fanShift v r) := by
      rw [hset]
      rcases foldl_min_mem rest a with hh | hh
      · rw [hh]; exact List.mem_cons_self a rest
      · exact List.mem_cons_of_mem a hh
    have hmle : rest.foldl min a ≤ de - 1 := by
      rw [hset] at hdemem
      rcases List.mem_cons.mp hdemem with rfl | hdm
      · exact (foldl_min_le rest (de - 1)).1
      · exact (foldl_min_le rest a).2 _ hdm
    have hmcond := fanSet_mem.mp hm
    have hmeq : rest.foldl min a = de - 1 := by
      by_contra hne
      have hlt : rest.foldl min a < de - 1 := by omega
      rw [hde2 _ hlt] at hmcond
      exact absurd hmcond (by simp)
    have hgne : lPCA.gaps (fanShift v r) ≠ [] := by
      intro hnil
      have hlen := gaps_length (fanShift v r)
      rw [hnil] at hlen
      have hwlen : (fanShift v r).length = v.length := by simp [fanShift]
      rw [hwlen] at hlen
      simp at hlen
      omega
    rw [hmeq, codeGap_eq_gapAt hgne]
    have : 1 + (de - 1) = de := by omega
    rw [this]

/-- C5 witness: on [10, 9, 1, 9/10, 1/10] with the default parameters the
noise tail starts at r = 2, the shift is 2/3, the first stopping index is 1
(shifted gap 25 exceeds alphaFan = 10), and the rule returns dimension 2
with gap 25. -/
theorem fan_stopping_witness :
    (lPCA.fanRun (19/20) 10 (4/5) [10, 9, 1, 9/10, 1/10]).1
      = some (2, EVal.fin 25) := by
  have h := fan_stopping [10, 9, 1, 9/10, 1/10] (19/20) 10 (4/5) 2 2
    (by decide) (by decide) (by decide) (by decide) (by decide) (by decide)
    (by decide) (by decide) (by decide) (by decide) (by decide) (by decide)
  rw [h]
  decide

/-- The argmax comparison is transitive. -/
theorem ltE_trans {a b c : EVal} (h1 : a.ltE b = true) (h2 : b.ltE c = true) :
    a.ltE c = true := by
  cases a <;> cases b <;> cases c <;> simp_all [EVal.ltE] <;> linarith

/-- Keys that are not nan are fixed by the nan replacement. -/
theorem toKey_ne_nan {e : EVal} (h : e ≠ .nan) : toKey e = e := by
  simp [toKey, h]

/-- -inf is strictly below every key other than -inf and nan. -/
theorem ninf_ltE {e : EVal} (h1 : e ≠ .nan) (h2 : e ≠ .ninf) :
    EVal.ltE .ninf e = true := by
  cases e <;> simp_all [EVal.ltE]

/-- Reading the mapped key list agrees with mapping the read. -/
theorem map_toKey_getD {l : List EVal} {j : ℕ} (h : j < l.length) :
    (l.map toKey).getD j .ninf = toKey (l.getD j .nan) := by
  rw [List.getD_eq_getElem?_getD, List.getD_eq_getElem?_getD,
    List.getElem?_eq_getElem (by simpa using h), List.getElem?_eq_getElem h]
  simp

/-- Specification of the argmax fold: starting from a best index b below the
offset i which is maximal on the prefix and strictly above every earlier
entry, the fold returns the first maximal index of the whole key list. -/
theorem argmaxAux_spec (K : List EVal) :
    ∀ (xs : List EVal) (i b : ℕ) (bv : EVal),
      xs = K.drop i → b < i → b < K.length → bv = K.getD b .ninf →
      (∀ j < i, bv.ltE (K.getD j .ninf) = false) →
      (∀ j < b, (K.getD j .ninf).ltE bv = true) →
      lPCA.argmaxAux xs i b bv < K.length
        ∧ (∀ j < K.length,
            (K.getD (lPCA.argmaxAux xs i b bv) .ninf).ltE (K.getD j .ninf) = false)
        ∧ ∀ j < lPCA.argmaxAux xs i b bv,
            (K.getD j .ninf).ltE (K.getD (lPCA.argmaxAux xs i b bv) .ninf) = true := by
  intro xs
  induction xs with
  | nil =>
    intro i b bv hxs hbi hbK hbv hmax hfirst
    have hiK : K.length ≤ i := List.drop_eq_nil_iff.mp hxs.symm
    simp only [lPCA.argmaxAux]
    refine ⟨hbK, ?_, ?_⟩
    · intro j hj
      rw [← hbv]
      exact hmax j (by omega)
    · intro j hj
      rw [← hbv]
      exact hfirst j hj
  | cons x xs ih =>
    intro i b bv hxs hbi hbK hbv hmax hfirst
    have hiK : i < K.length := by
      by_contra hge
      push_neg at hge
      rw [List.drop_eq_nil_of_le hge] at hxs
      exact absurd hxs (by simp)
    have hdrop : K.drop i = K.getD i .ninf :: K.drop (i + 1) := by
      rw [List.drop_eq_getElem_cons hiK, List.getD_eq_getElem?_getD,
        List.getElem?_eq_getElem hiK]
      simp
    rw [← hxs] at hdrop
    have hx : x = K.getD i .ninf := (List.cons.injEq _ _ _ _ ▸ hdrop).1
    have hxs2 : xs = K.drop (i + 1) := (List.cons.injEq _ _ _ _ ▸ hdrop).2
    rw [lPCA.argmaxAux]
    by_cases hbvx : bv.ltE x = true
    · rw [if_pos hbvx]
      apply ih (i + 1) i x hxs2 (by omega) hiK hx
      · intro j hj
        rcases Nat.lt_succ_iff_lt_or_eq.mp hj with hj | rfl
        · exact ltE_asymm (ltE_of_not_of_ltE (hmax j hj) hbvx)
        · rw [← hx]
          exact ltE_irrefl x
      · intro j hj
        rcases Nat.lt_trichotomy j b with hjb | rfl | hjb
        · exact ltE_trans (hfirst j hjb) hbvx
        · rw [← hbv]
          exact hbvx
        · exact ltE_of_not_of_ltE (hmax j hj) hbvx
    · rw [if_neg hbvx]
      apply ih (i + 1) b bv hxs2 (by omega) hbK hbv
      · intro j hj
        rcases Nat.lt_succ_iff_lt_or_eq.mp hj with hj | rfl
        · exact hmax j hj
        · rw [← hx]
          exact Bool.not_eq_true _ ▸ (by simpa using hbvx)
      · exact hfirst

/-- Specification of nanargmax on an array that is not all nan: it returns
the first index whose key (nan replaced by -inf) is maximal. -/
theorem nanargmax_spec {l : List EVal}
    (hsome : ¬ l.all (fun e => decide (e = EVal.nan)) = true) :
    ∃ idx, lPCA.nanargmax l = some idx ∧ idx < l.length
      ∧ (∀ j < l.length,
          ((l.map toKey).getD idx .ninf).ltE ((l.map toKey).getD j .ninf) = false)
      ∧ ∀ j < idx,
          ((l.map toKey).getD j .ninf).ltE ((l.map toKey).getD idx .ninf) = true := by
  cases l with
  | nil => simp at hsome
  | cons e es =>
    rw [lPCA.nanargmax, if_neg hsome]
    simp only [List.map_cons]
    have hspec := argmaxAux_spec ((e :: es).map toKey) (es.map toKey) 1 0 (toKey e)
      (by simp) (by omega) (by simp) (by simp [List.getD])
      (fun j hj => by
        interval_cases j
        · simp only [List.map_cons]
          rw [show ((toKey e :: es.map toKey).getD 0 .ninf) = toKey e from rfl]
          exact ltE_irrefl (toKey e))
      (fun j hj => by omega)
    simp only [List.map_cons, List.length_cons, List.length_map] at hspec
    refine ⟨lPCA.argmaxAux (es.map toKey) 1 0 (toKey e), rfl, ?_, ?_, ?_⟩
    · simp only [List.length_cons]
      omega
    · intro j hj
      have := hspec.2.1 j (by simpa using hj)
      simpa using this
    · intro j hj
      have := hspec.2.2 j hj
      simpa using this

/-- Reads inside the list are members. -/
theorem getD_mem {l : List EVal} {j : ℕ} (h : j < l.length) : l.getD j .nan ∈ l := by
  rw [List.getD_eq_getElem?_getD, List.getElem?_eq_getElem h]
  exact List.getElem_mem h

/-- Gaps of a non-negative spectrum are never -inf: the numerator of each
consecutive ratio is non-negative. -/
theorem gaps_no_ninf {v : List ℚ} (hnn : ∀ x ∈ v, 0 ≤ x) :
    ∀ j < (lPCA.gaps v).length, (lPCA.gaps v).getD j .nan ≠ .ninf := by
  intro j hj
  rw [gaps_length] at hj
  have hj1 : j + 1 < v.length := by omega
  have hjv : j < v.length := by omega
  rw [gaps_getD hj1]
  have ha : 0 ≤ v.getD j 0 := by
    rw [List.getD_eq_getElem?_getD, List.getElem?_eq_getElem hjv]
    simpa using hnn _ (List.getElem_mem hjv)
  rw [pyDivQ]
  split_ifs with hb hpos hneg
  · simp
  · exact absurd hneg (not_lt.mpr ha)
  · simp
  · simp

/-- C3: for a non-negative spectrum of length at least two whose gap
sequence has a non-nan entry, the maxgap rule returns one plus the index of
the first maximal non-nan gap, together with the gap at that cutoff. -/
theorem maxgap_first_max (v : List ℚ) (idx : ℕ) (hd : 2 ≤ v.length)
    (hnn : ∀ x ∈ v, 0 ≤ x) (hidx : idx < (lPCA.gaps v).length)
    (h1 : (lPCA.gaps v).getD idx .nan ≠ .nan)
    (h2 : ∀ j < (lPCA.gaps v).length, (lPCA.gaps v).getD j .nan ≠ .nan →
        ((lPCA.gaps v).getD idx .nan).ltE ((lPCA.gaps v).getD j .nan) = false)
    (h3 : ∀ j < idx, (lPCA.gaps v).getD j .nan = .nan
        ∨ ((lPCA.gaps v).getD j .nan).ltE ((lPCA.gaps v).getD idx .nan) = true) :
    lPCA.maxgap v = some (idx + 1, gapAt (idx + 1) (lPCA.gaps v)) := by
  have hnall : ¬ (lPCA.gaps v).all (fun e => decide (e = EVal.nan)) = true := by
    intro hall
    rw [List.all_eq_true] at hall
    have := hall _ (getD_mem hidx)
    exact h1 (of_decide_eq_true this)
  obtain ⟨r, hngm, hrlt, hrmax, hrfirst⟩ := nanargmax_spec hnall
  have hidxK : ((lPCA.gaps v).map toKey).getD idx .ninf = (lPCA.gaps v).getD idx .nan := by
    rw [map_toKey_getD hidx, toKey_ne_nan h1]
  have hrnan : (lPCA.gaps v).getD r .nan ≠ .nan := by
    intro hnan
    have hrK : ((lPCA.gaps v).map toKey).getD r .ninf = .ninf := by
      rw [map_toKey_getD hrlt, hnan]
      rfl
    have hmax := hrmax idx hidx
    rw [hrK, hidxK] at hmax
    have hninf := ninf_ltE h1 (gaps_no_ninf hnn idx hidx)
    rw [hmax] at hninf
    exact absurd hninf (by simp)
  have hrK : ((lPCA.gaps v).map toKey).getD r .ninf = (lPCA.gaps v).getD r .nan := by
    rw [map_toKey_getD hrlt, toKey_ne_nan hrnan]
  have hne : ¬ r < idx := by
    intro hlt
    rcases h3 r hlt with hnan | hlt2
    · exact hrnan hnan
    · have hmax := hrmax idx hidx
      rw [hrK, hidxK] at hmax
      rw [hmax] at hlt2
      exact absurd hlt2 (by simp)
  have hne2 : ¬ idx < r := by
    intro hlt
    have hfst := hrfirst idx hlt
    rw [hrK, hidxK] at hfst
    have hmaxr := h2 r hrlt hrnan
    rw [hmaxr] at hfst
    exact absurd hfst (by simp)
  have hreq : r = idx := by omega
  subst hreq
  have hgne : lPCA.gaps v ≠ [] := by
    intro h0
    rw [h0] at hidx
    simp at hidx
  simp only [lPCA.maxgap, hngm]
  rw [codeGap_eq_gapAt hgne]

/-- C3 witness: on [10, 9, 1, 9/10, 1/10] the gaps are
[10/9, 9, 10/9, 9], the first maximal gap sits at index 1, and maxgap
returns dimension 2 with gap 9. -/
theorem maxgap_first_max_witness :
    lPCA.maxgap [10, 9, 1, 9/10, 1/10] = some (2, EVal.fin 9) := by
  have h := maxgap_first_max [10, 9, 1, 9/10, 1/10] 1 (by decide) (by decide)
    (by decide) (by decide) (by decide) (by decide)
  rw [h]
  decide
